import Mathlib

/-!
Verification of the link-harvesting and rewriting scripts of the
anubhava-montessori repository.

The Python sources operate on raw text with `re` patterns.  We embed the
relevant functions shallowly: strings are `List Char`, each concrete regular
expression is translated into a deterministic matcher (`List Char → Option Nat`
returning the number of consumed characters, mirroring the leftmost-match,
greedy-with-backtracking behaviour of the concrete patterns), and `re.sub` /
`re.findall` become fuel-based scanners (`subLit`, `subFun`, `findAll`) that
walk the text left to right, restarting after the end of each match, exactly
as Python's non-overlapping scan does.  The fuel argument is always the length
of the scanned text, which is an upper bound on the number of scan steps, so
the fuel never runs out; it only serves to make the recursion structural (and
hence kernel-evaluable).  Case-insensitive matching (`re.IGNORECASE`) is
modelled by comparing `Char.toLower` images.
-/

/-- Convert a string literal to the character-list representation used
throughout this development. -/
def lc (s : String) : List Char := s.data

/-- Lowercase every character; used to model `re.IGNORECASE` matching. -/
def lowerL (l : List Char) : List Char := l.map Char.toLower

/-- The double-quote character. -/
def dqc : Char := Char.ofNat 34

/-- The single-quote character. -/
def sqc : Char := Char.ofNat 39

/-- Is the character one of the two quote characters of the class `["\']`? -/
def isQuote (c : Char) : Bool := c == dqc || c == sqc

/-- Python's `\s` class over ASCII: space, tab, newline, carriage return,
vertical tab, form feed. -/
def isSpacePy (c : Char) : Bool :=
  c == ' ' || c == Char.ofNat 9 || c == Char.ofNat 10 || c == Char.ofNat 13 ||
  c == Char.ofNat 11 || c == Char.ofNat 12

/-- The identifier class `[a-zA-Z0-9_-]` used for YouTube video ids and
Google Drive file ids. -/
def isIdChar (c : Char) : Bool :=
  (c.isAlpha || c.isDigit) || c == '_' || c == '-'

/-- Does `u` occur as a contiguous subsequence of `s`?  Executable model of
Python's `in` test on strings. -/
def containsSeq (u : List Char) : List Char → Bool
  | [] => u.isEmpty
  | c :: cs => u.isPrefixOf (c :: cs) || containsSeq u cs

/-- Keep the first occurrence of every element, dropping later duplicates.
This is the deterministic refinement used to model Python's
`list(set(xs))` / set-accumulation: the source relies on a `set`, whose
enumeration order is unspecified (hash-dependent), so any order-sensitive
property proved *false* for this first-occurrence refinement is a fortiori
not guaranteed by the source. -/
def dedupFirstAux (seen : List (List Char)) : List (List Char) → List (List Char)
  | [] => []
  | x :: xs => if x ∈ seen then dedupFirstAux seen xs else x :: dedupFirstAux (x :: seen) xs

/-- Entry point of the first-occurrence deduplication. -/
def dedupFirst (l : List (List Char)) : List (List Char) := dedupFirstAux [] l

/-- Matcher for a case-insensitive literal (an `re.escape`d or letter-for-letter
pattern fragment under `re.IGNORECASE`): consumes exactly the literal. -/
def mLitCI (p : List Char) (s : List Char) : Option Nat :=
  if (lowerL p).isPrefixOf (lowerL s) then some p.length else none

/-- Matcher for a case-sensitive literal pattern fragment. -/
def mLitCS (p : List Char) (s : List Char) : Option Nat :=
  if p.isPrefixOf s then some p.length else none

/-- Sequential composition of matchers, accumulating consumed lengths. -/
def mseq (m1 m2 : List Char → Option Nat) (s : List Char) : Option Nat :=
  match m1 s with
  | none => none
  | some n =>
    match m2 (s.drop n) with
    | none => none
    | some k => some (n + k)

/-- Ordered alternative: try `m1`, fall back to `m2`.  Models the
backtracking of `X?` and `(?:A)?B` fragments in the concrete patterns. -/
def mAlt (m1 m2 : List Char → Option Nat) (s : List Char) : Option Nat :=
  match m1 s with
  | some n => some n
  | none => m2 s

/-- Matcher for the one-character class `["\']`. -/
def mQuote (s : List Char) : Option Nat :=
  match s with
  | c :: _ => if isQuote c then some 1 else none
  | [] => none

/-- Greedy tail `[^"\'<>\s]*` of the video-URL patterns: consumes the maximal
run, always succeeds. -/
def mTailYT (s : List Char) : Option Nat :=
  some (s.takeWhile (fun c => !(isQuote c || c == '<' || c == '>' || isSpacePy c))).length

/-- Matcher for the closing fragment `["\']?\)` (greedy optional quote, with
the backtracking the regex engine performs). -/
def mCloseParen (s : List Char) : Option Nat :=
  match s with
  | c :: rest =>
    if c == ')' then some 1
    else if isQuote c then
      match rest with
      | d :: _ => if d == ')' then some 2 else none
      | [] => none
    else none
  | [] => none

/-- Fuel-based engine for `re.sub(pattern, literal, text)`: scan left to
right, replace each non-overlapping match by `rep`, resume after the match. -/
def subLitAux (m : List Char → Option Nat) (rep : List Char) : Nat → List Char → List Char
  | 0, s => s
  | _ + 1, [] => []
  | f + 1, c :: cs =>
    match m (c :: cs) with
    | some n => rep ++ subLitAux m rep f (cs.drop (n - 1))
    | none => c :: subLitAux m rep f cs

/-- Run the literal-replacement scan with enough fuel for the whole text. -/
def subLit (m : List Char → Option Nat) (rep : List Char) (s : List Char) : List Char :=
  subLitAux m rep s.length s

/-- Fuel-based engine for `re.sub(pattern, f, text)` with a function
replacement, also counting matches (the same count `re.findall` reports,
since both use the identical non-overlapping left-to-right scan). -/
def subFunAux (m : List Char → Option Nat) (rf : List Char → List Char) :
    Nat → List Char → List Char × Nat
  | 0, s => (s, 0)
  | _ + 1, [] => ([], 0)
  | f + 1, c :: cs =>
    match m (c :: cs) with
    | some n =>
      let p := subFunAux m rf f (cs.drop (n - 1))
      (rf ((c :: cs).take n) ++ p.1, p.2 + 1)
    | none =>
      let p := subFunAux m rf f cs
      (c :: p.1, p.2)

/-- Run the function-replacement scan with enough fuel for the whole text. -/
def subFun (m : List Char → Option Nat) (rf : List Char → List Char) (s : List Char) :
    List Char × Nat :=
  subFunAux m rf s.length s

/-- Fuel-based engine for `re.findall`: collect the capture of every
non-overlapping match, left to right. -/
def findAllAux (m : List Char → Option (Nat × List Char)) :
    Nat → List Char → List (List Char)
  | 0, _ => []
  | _ + 1, [] => []
  | f + 1, c :: cs =>
    match m (c :: cs) with
    | some (n, cap) => cap :: findAllAux m f (cs.drop (n - 1))
    | none => findAllAux m f cs

/-- Run the findall scan with enough fuel for the whole text. -/
def findAll (m : List Char → Option (Nat × List Char)) (s : List Char) : List (List Char) :=
  findAllAux m s.length s

/-- The scheme fragment `https?://` (greedy optional `s`, with backtracking,
which is equivalent to trying the two literals in this order). -/
def schemeM : List Char → Option Nat :=
  mAlt (mLitCI (lc "https://")) (mLitCI (lc "http://"))

/-- Matcher for `https?://(?:www\.)?youtube\.com/watch\?v=ID[^"\'<>\s]*`
from `replace_youtube_links` in `download_youtube_videos.py` (the video id is
spliced into the pattern literally; ids drawn from `[a-zA-Z0-9_-]+` contain no
regex metacharacters, so literal matching is faithful). -/
def ytWatchM (vid : List Char) : List Char → Option Nat :=
  mseq schemeM
    (mseq (mAlt (mLitCI (lc "www.youtube.com/watch?v=")) (mLitCI (lc "youtube.com/watch?v=")))
      (mseq (mLitCI vid) mTailYT))

/-- Matcher for `https?://(?:www\.)?youtube\.com/embed/ID[^"\'<>\s]*`. -/
def ytEmbedM (vid : List Char) : List Char → Option Nat :=
  mseq schemeM
    (mseq (mAlt (mLitCI (lc "www.youtube.com/embed/")) (mLitCI (lc "youtube.com/embed/")))
      (mseq (mLitCI vid) mTailYT))

/-- Matcher for `https?://youtu\.be/ID[^"\'<>\s]*`. -/
def ytShortM (vid : List Char) : List Char → Option Nat :=
  mseq schemeM (mseq (mLitCI (lc "youtu.be/")) (mseq (mLitCI vid) mTailYT))

/-- One `re.sub` step of `replace_youtube_links`: substitute the pattern and
bump the replacement counter exactly when the text changed, as the source
does (`if new_content != modified_content: replacements += 1`). -/
def ytApplyPattern (m : List Char → Option Nat) (lp : List Char) (st : List Char × Nat) :
    List Char × Nat :=
  let new := subLit m lp st.1
  (new, if new = st.1 then st.2 else st.2 + 1)

/-- The body of the outer loop of `replace_youtube_links`: apply the three
URL patterns of one mapped video id in source order. -/
def ytStep (st : List Char × Nat) (kv : List Char × List Char) : List Char × Nat :=
  ytApplyPattern (ytShortM kv.1) kv.2
    (ytApplyPattern (ytEmbedM kv.1) kv.2
      (ytApplyPattern (ytWatchM kv.1) kv.2 st))

/-- Model of `replace_youtube_links(html_content, video_id_mapping)` from
`download_youtube_videos.py`: for each mapped video id, apply the three URL
patterns in order, replacing matches by the local path. -/
def replace_youtube_links (html_content : List Char)
    (video_id_mapping : List (List Char × List Char)) : List Char × Nat :=
  video_id_mapping.foldl ytStep (html_content, 0)

/-- Capture combinator: a plain fragment followed by a capturing fragment. -/
def mseqCap (m : List Char → Option Nat) (mc : List Char → Option (Nat × List Char))
    (s : List Char) : Option (Nat × List Char) :=
  match m s with
  | none => none
  | some n =>
    match mc (s.drop n) with
    | none => none
    | some (k, cap) => some (n + k, cap)

/-- Capturing run `([a-zA-Z0-9_-]+)`: the maximal nonempty identifier run. -/
def idRunM (s : List Char) : Option (Nat × List Char) :=
  let r := s.takeWhile isIdChar
  if r.isEmpty then none else some (r.length, r)

/-- Model of `extract_youtube_links` from `download_youtube_videos.py`,
restricted to the video ids it returns: the three URL patterns are scanned in
order and the resulting ids are deduplicated keeping first occurrences
(faithful: the source dedups through an insertion-ordered `dict`). -/
def extract_youtube_ids (html_content : List Char) : List (List Char) :=
  dedupFirst
    (findAll (mseqCap (mseq schemeM
        (mAlt (mLitCI (lc "www.youtube.com/watch?v=")) (mLitCI (lc "youtube.com/watch?v="))))
        idRunM) html_content ++
     findAll (mseqCap (mseq schemeM
        (mAlt (mLitCI (lc "www.youtube.com/embed/")) (mLitCI (lc "youtube.com/embed/"))))
        idRunM) html_content ++
     findAll (mseqCap (mseq schemeM (mLitCI (lc "youtu.be/"))) idRunM) html_content)

/-- Python's `str.replace` for a nonempty target: replace every
non-overlapping occurrence left to right. -/
def strReplaceAux (target repl : List Char) : Nat → List Char → List Char
  | 0, s => s
  | _ + 1, [] => []
  | f + 1, c :: cs =>
    if target.isPrefixOf (c :: cs) then
      repl ++ strReplaceAux target repl f (cs.drop (target.length - 1))
    else c :: strReplaceAux target repl f cs

/-- Python's `s.replace(target, repl)`, including the empty-target behaviour
(`"ab".replace("", "X") = "XaXbX"`). -/
def strReplace (s target repl : List Char) : List Char :=
  if target.isEmpty then repl ++ List.flatten (s.map fun c => c :: repl)
  else strReplaceAux target repl s.length s

/-- Matcher for the quoted-attribute context `ATTR["\'](URL)["\']` (with the
URL escaped by `re.escape`, hence a literal), used for the `src=`, `srcset=`
and `href=` patterns of `replace_image_links` in `download_images.py`. -/
def ctxAttrM (attr url : List Char) : List Char → Option Nat :=
  mseq (mLitCI attr) (mseq mQuote (mseq (mLitCI url) mQuote))

/-- Matcher for the style context `url\(["\']?(URL)["\']?\)` of
`replace_image_links`. -/
def ctxUrlParenM (url : List Char) : List Char → Option Nat :=
  mseq (mLitCI (lc "url("))
    (mAlt (mseq mQuote (mseq (mLitCI url) mCloseParen)) (mseq (mLitCI url) mCloseParen))

/-- One pattern step of `replace_image_links`: count the matches
(`re.findall`) and, only when the count is positive, substitute each match
`m` by `m.group(0).replace(url, local_path)`, accumulating the count. -/
def imgApplyPattern (m : List Char → Option Nat) (url local_path : List Char)
    (st : List Char × Nat) : List Char × Nat :=
  let p := subFun m (fun g0 => strReplace g0 url local_path) st.1
  if p.2 > 0 then (p.1, st.2 + p.2) else (st.1, st.2)

/-- The body of the outer loop of `replace_image_links`: for one mapped URL
the four attribute/style contexts are processed in source order, each context
replacing the URL inside the matched text by `images/<local_filename>`. -/
def imgStep (st : List Char × Nat) (kv : List Char × List Char) : List Char × Nat :=
  imgApplyPattern (ctxAttrM (lc "href=") kv.1) kv.1 (lc "images/" ++ kv.2)
    (imgApplyPattern (ctxUrlParenM kv.1) kv.1 (lc "images/" ++ kv.2)
      (imgApplyPattern (ctxAttrM (lc "srcset=") kv.1) kv.1 (lc "images/" ++ kv.2)
        (imgApplyPattern (ctxAttrM (lc "src=") kv.1) kv.1 (lc "images/" ++ kv.2) st)))

/-- Model of `replace_image_links(html_content, image_mapping, rel_dir)` from
`download_images.py`.  The `rel_dir` parameter of the source is unused by its
body and is omitted; see `imgStep` for the loop body. -/
def replace_image_links (html_content : List Char)
    (image_mapping : List (List Char × List Char)) : List Char × Nat :=
  image_mapping.foldl imgStep (html_content, 0)

/-- Capturing matcher for the fragment `ATTR["\']([^"\']+)["\']` used inside
the extraction patterns of `extract_image_links`: the attribute literal, an
opening quote, a maximal nonempty run of non-quote characters (the capture),
and a closing quote.  `capOk` is an extra admissibility test on the capture
(`fun _ => true` except for the `<link href>` pattern, whose capture must end
in a known image extension). -/
def attrValCapM (attr : List Char) (capOk : List Char → Bool) (s : List Char) :
    Option (Nat × List Char) :=
  match mLitCI attr s with
  | none => none
  | some n =>
    match s.drop n with
    | [] => none
    | c :: rest =>
      if isQuote c then
        let cap := rest.takeWhile (fun d => !(isQuote d))
        if cap.isEmpty then none
        else
          match rest.drop cap.length with
          | d :: _ =>
            if isQuote d && capOk cap then some (n + 1 + cap.length + 1, cap) else none
          | [] => none
      else none

/-- Backtracking search for the `[^>]+ATTR...` part of a tag pattern such as
`<img[^>]+src=["\']([^"\']+)["\']`: the greedy `[^>]+` tries the largest gap
`q` first (bounded by the run of non-`>` characters) and shrinks it until the
attribute fragment matches, exactly as the regex engine backtracks. -/
def tagSearchQ (attrM : List Char → Option (Nat × List Char)) (rest : List Char) :
    Nat → Option (Nat × List Char)
  | 0 => none
  | q + 1 =>
    match attrM (rest.drop (q + 1)) with
    | some (n, cap) => some (q + 1 + n, cap)
    | none => tagSearchQ attrM rest q

/-- Matcher for a whole tag pattern `TAG[^>]+ATTRFRAGMENT` (case-insensitive,
on literal text, tolerant of malformed markup). -/
def tagAttrM (tag : List Char) (attrM : List Char → Option (Nat × List Char))
    (s : List Char) : Option (Nat × List Char) :=
  match mLitCI tag s with
  | none => none
  | some tn =>
    let rest := s.drop tn
    match tagSearchQ attrM rest (rest.takeWhile (fun c => c != '>')).length with
    | none => none
    | some (k, cap) => some (tn + k, cap)

/-- The image extensions recognised by the `<link href>` extraction pattern
`\.(?:png|jpg|jpeg|gif|svg|webp|ico)`. -/
def imageExts : List (List Char) :=
  [lc ".png", lc ".jpg", lc ".jpeg", lc ".gif", lc ".svg", lc ".webp", lc ".ico"]

/-- Admissibility of a `<link href>` capture `([^"\']+\.(?:png|...))`: the
quoted value must consist of a nonempty stem followed by a dot and one of the
known extensions (matched case-insensitively). -/
def extOk (cap : List Char) : Bool :=
  imageExts.any fun e => e.isSuffixOf (lowerL cap) && decide (e.length + 1 ≤ cap.length)

/-- Characters allowed in the `background-image` capture class `[^"\')\s]`. -/
def bgChar (c : Char) : Bool := !(isQuote c || c == ')' || isSpacePy c)

/-- The capture-and-close part `([^"\')\s]+)["\']?\)` of the
`background-image` pattern. -/
def bgCap (t : List Char) : Option (Nat × List Char) :=
  let cap := t.takeWhile bgChar
  if cap.isEmpty then none
  else
    match mCloseParen (t.drop cap.length) with
    | none => none
    | some k => some (cap.length + k, cap)

/-- Matcher for
`background-image:\s*url\(["\']?([^"\')\s]+)["\']?\)` (third pattern of
`extract_image_links`).  The optional opening quote is greedy; when it is
absent or the following capture would be empty the quoteless branch applies,
which is exactly the regex engine's backtracking on `["\']?`. -/
def bgImageM (s : List Char) : Option (Nat × List Char) :=
  match mLitCI (lc "background-image:") s with
  | none => none
  | some n1 =>
    let n2 := n1 + ((s.drop n1).takeWhile isSpacePy).length
    match mLitCI (lc "url(") (s.drop n2) with
    | none => none
    | some n3 =>
      match s.drop (n2 + n3) with
      | [] => none
      | c :: rest =>
        if isQuote c then
          match bgCap rest with
          | none => none
          | some (k, cap) => some (n2 + n3 + 1 + k, cap)
        else
          match bgCap (c :: rest) with
          | none => none
          | some (k, cap) => some (n2 + n3 + k, cap)

/-- The per-URL filter of `extract_image_links` (lines 24-37 of
`download_images.py`): drop `data:`/fragment/blank references, keep absolute
`http(s)` URLs (the `sites.google.com` test in the source is subsumed by the
always-true `url.startswith('http')` disjunct, modelled verbatim), and
normalise protocol-relative URLs by prefixing `https:`. -/
def imgFilter (url : List Char) : Option (List Char) :=
  if (lc "data:").isPrefixOf url || (lc "#").isPrefixOf url || url.all isSpacePy then none
  else if (lc "http://").isPrefixOf url || (lc "https://").isPrefixOf url then
    if !(containsSeq (lc "sites.google.com") url) || (lc "http").isPrefixOf url then
      some url
    else none
  else if (lc "//").isPrefixOf url then some (lc "https:" ++ url)
  else none

/-- Model of `extract_image_links(html_content)` from `download_images.py`:
scan the four extraction patterns in source order, filter the collected URLs,
and deduplicate.  The source's final `list(set(...))` has unspecified
enumeration order; it is modelled by the deterministic first-occurrence
deduplication `dedupFirst` (see its docstring). -/
def extract_image_links (html_content : List Char) : List (List Char) :=
  dedupFirst
    ((findAll (tagAttrM (lc "<img") (attrValCapM (lc "src=") (fun _ => true))) html_content ++
      findAll (tagAttrM (lc "<source") (attrValCapM (lc "srcset=") (fun _ => true))) html_content ++
      findAll bgImageM html_content ++
      findAll (tagAttrM (lc "<link") (attrValCapM (lc "href=") extOk)) html_content).filterMap
      imgFilter)

/-- Capturing matcher for the Google-Drive patterns of
`extract_google_drive_links` / `extract_google_drive_file_ids`: a
case-sensitive literal URL stem followed by the captured file id
`([a-zA-Z0-9_-]+)` (these patterns are compiled without `re.IGNORECASE`). -/
def driveCapM (lit : List Char) (s : List Char) : Option (Nat × List Char) :=
  match mLitCS lit s with
  | none => none
  | some n =>
    let cap := (s.drop n).takeWhile isIdChar
    if cap.isEmpty then none else some (n + cap.length, cap)

/-- Model of `extract_google_drive_links` from `download_videos.py`: collect
the file ids captured by the three URL-form patterns, in pattern order, and
map each occurrence (without any deduplication) to the download URL
`https://drive.google.com/uc?export=download&id=<id>`. -/
def extract_google_drive_links (html_content : List Char) : List (List Char) :=
  (findAll (driveCapM (lc "https://drive.google.com/file/d/")) html_content ++
   findAll (driveCapM (lc "https://drive.google.com/open?id=")) html_content ++
   findAll (driveCapM (lc "https://docs.google.com/file/d/")) html_content).map
    fun file_id => lc "https://drive.google.com/uc?export=download&id=" ++ file_id

/-- Model of `extract_google_drive_file_ids` from `download_videos_gdown.py`:
the five URL-form patterns in source order, accumulated into a set of ids.
The source's `set` accumulation is modelled by first-occurrence
deduplication (see `dedupFirstAux`). -/
def extract_google_drive_file_ids (html_content : List Char) : List (List Char) :=
  dedupFirst
    (findAll (driveCapM (lc "https://drive.google.com/file/d/")) html_content ++
     findAll (driveCapM (lc "https://drive.google.com/open?id=")) html_content ++
     findAll (driveCapM (lc "https://docs.google.com/file/d/")) html_content ++
     findAll (driveCapM (lc "drive.google.com/uc?export=download&amp;id=")) html_content ++
     findAll (driveCapM (lc "drive.google.com/uc?id=")) html_content)

/-- The `video_<n>.mp4` destination filename used by `download_file` in
`download_videos.py` and `download_video` in `download_videos_gdown.py`. -/
def videoFileName (file_number : Nat) : List Char :=
  lc "video_" ++ (toString file_number).data ++ lc ".mp4"

/-- Model of `download_file(url, destination_folder, file_number)` from
`download_videos.py`.  The filesystem of the destination folder is the list
`fs` of filenames present; `transportOk` is the outcome of the
`urllib.request.urlretrieve` call (an exception is caught and turned into
`False`).  Result: `(returned value, whether a transport call was made,
filesystem afterwards)`. -/
def download_file (fs : List (List Char)) (file_number : Nat) (transportOk : Bool) :
    Bool × Bool × List (List Char) :=
  if videoFileName file_number ∈ fs then (true, false, fs)
  else if transportOk then (true, true, videoFileName file_number :: fs)
  else (false, true, fs)

/-- Outcome of an HTTP fetch by `requests.get` as seen by
`download_image` in `download_images.py`: success, a non-2xx status (which
`raise_for_status` turns into an exception), a timeout, or any other
transport exception.  All three failure forms are caught by the function's
`except Exception` handler. -/
inductive Transport where
  | ok
  | httpErr
  | timeout
  | exc
deriving DecidableEq

/-- Did the transport outcome succeed? -/
def transportOk : Transport → Bool
  | Transport.ok => true
  | _ => false

/-- Model of `download_image(url, output_path)` from `download_images.py`.
The function performs `requests.get` unconditionally — it never tests whether
`output_path` already exists — so the filesystem flag `destExists` is
recorded only to state the specification claim about it.  Result:
`(returned value, whether a transport call was made)`. -/
def download_image (destExists : Bool) (t : Transport) : Bool × Bool :=
  (transportOk t, true)

/-- Model of the download loop of `main` (lines 140-171 of
`download_images.py`): every aggregated URL is attempted in order via
`download_image`; a `False` return is printed and the loop moves on.  Result:
`(list of URLs attempted, number downloaded)`. -/
def mainImagesLoop (urls : List (List Char)) (tr : List Char → Transport) :
    List (List Char) × Nat :=
  match urls with
  | [] => ([], 0)
  | u :: rest =>
    let p := mainImagesLoop rest tr
    (u :: p.1, (if (download_image false (tr u)).1 then 1 else 0) + p.2)

/-- Result of a `gdown.download` (or `yt_dlp` download) call as observed by
`download_video` in `download_videos_gdown.py`: either the call returns
normally leaving the destination file at a given size (or absent), or it
raises, possibly leaving a partial destination file behind. -/
inductive GdownRes where
  | completed (size : Option Nat)
  | raised (partialLeft : Bool)
deriving DecidableEq

/-- Model of `download_video(file_id, destination_folder, file_number)` from
`download_videos_gdown.py`.  `exists0` says whether the destination file
already exists.  Result: `(returned value, whether a transport call was
made, whether the destination file exists afterwards)`.  On a normal return
with a missing or empty file the partial file is removed; the `except`
handler returns `False` without any cleanup. -/
def download_video (exists0 : Bool) (r : GdownRes) : Bool × Bool × Bool :=
  if exists0 then (true, false, true)
  else
    match r with
    | GdownRes.completed (some sz) =>
      if sz > 0 then (true, true, true) else (false, true, false)
    | GdownRes.completed none => (false, true, false)
    | GdownRes.raised p => (false, true, p)

/-- Model of the per-document download loop of `process_html_file` in
`download_videos.py` (lines 75-78): enumerate the extracted links from 1,
calling `download_file` for each with the per-document counter as the file
number.  Result: `(number reported downloaded, filesystem afterwards)`. -/
def processLoopDV (fs : List (List Char)) (oracle : Nat → Bool) (i : Nat) :
    List (List Char) → Nat × List (List Char)
  | [] => (0, fs)
  | _link :: rest =>
    let r := download_file fs i (oracle i)
    let p := processLoopDV r.2.2 oracle (i + 1) rest
    ((if r.1 then 1 else 0) + p.1, p.2)

/-- Model of `process_html_file(filepath)` from `download_videos.py`
restricted to its fetch behaviour: extract the Google Drive links of the
document and run the download loop against an initially observed filesystem
`fs`. -/
def process_html_file_dv (content : List Char) (fs : List (List Char))
    (oracle : Nat → Bool) : Nat × List (List Char) :=
  processLoopDV fs oracle 1 (extract_google_drive_links content)

/-- Record a document membership for a URL in the aggregated index, exactly
as `main` of `download_images.py` does with the `all_images` dict: a fresh
URL is appended at the end (Python dicts preserve insertion order), an
existing URL gets the document path appended to its list. -/
def addMembership : List (List Char × List (List Char)) → List Char → List Char →
    List (List Char × List (List Char))
  | [], url, path => [(url, [path])]
  | e :: rest, url, path =>
    if e.1 = url then (e.1, e.2 ++ [path]) :: rest
    else e :: addMembership rest url path

/-- Aggregate one document into the index (lines 121-128 of
`download_images.py`): every extracted URL of the document records the
document path once. -/
def aggFile (all : List (List Char × List (List Char))) (path content : List Char) :
    List (List Char × List (List Char)) :=
  (extract_image_links content).foldl (fun a u => addMembership a u path) all

/-- Model of the scan phase of `main` in `download_images.py` (lines
111-131): fold every `(relative path, content)` document into the aggregated
`all_images` index. -/
def aggregate (files : List (List Char × List Char)) :
    List (List Char × List (List Char)) :=
  files.foldl (fun a pc => aggFile a pc.1 pc.2) []

/-- First index at which `t` occurs in `s` (Python `str.find`, as an
`Option`). -/
def findIdxSub (t : List Char) : List Char → Option Nat
  | [] => if t.isEmpty then some 0 else none
  | c :: cs =>
    if t.isPrefixOf (c :: cs) then some 0
    else (findIdxSub t cs).map (· + 1)

/-- Last index at which `t` occurs in `s` (Python `str.rfind`, as an
`Option`). -/
def rfindSub (t : List Char) : List Char → Option Nat
  | [] => if t.isEmpty then some 0 else none
  | c :: cs =>
    match rfindSub t cs with
    | some i => some (i + 1)
    | none => if t.isPrefixOf (c :: cs) then some 0 else none

/-- Python `s.find(t, start)`: first occurrence at or after `start`. -/
def findFromSub (t : List Char) (start : Nat) (s : List Char) : Option Nat :=
  (findIdxSub t (s.drop start)).map (· + start)

/-- Replace the first occurrence of `t` in `s` by `r` (Python
`s.replace(t, r, 1)`, and `re.sub(pat, repl, s, count=1)` for a literal
pattern); `s` is returned unchanged when `t` does not occur. -/
def replaceFirstL (t r s : List Char) : List Char :=
  match findIdxSub t s with
  | none => s
  | some i => s.take i ++ r ++ s.drop (i + t.length)

/-- Insert `ins` at position `p` of `s`. -/
def insertAtL (p : Nat) (ins s : List Char) : List Char :=
  s.take p ++ ins ++ s.drop p

/-- Text of the `REDIRECT_BLOCKER` constant of `fix_all_html.py` before its
single occurrence of the marker string (verbatim; braces, apostrophes and
quotes are written with character escapes). -/
def blockerPre : List Char :=
  lc "    <script>\n      // ULTRA AGGRESSIVE REDIRECT BLOCKER - BLOCKS ALL NAVIGATION\n      (function() \x7b\n        \x27use strict\x27;\n        \n        var currentHref = window.location.href;\n        var blocked = false;\n        \n        // Store original functions\n        var originalPushState = history.pushState;\n        var originalReplaceState = history.replaceState;\n        \n        // Block history API\n        history.pushState = function() \x7b console.log(\x27Blocked pushState\x27); \x7d;\n        history.replaceState = function() \x7b console.log(\x27Blocked replaceState\x27); \x7d;\n        \n        // Completely freeze window.location\n        Object.defineProperty(window, \x27location\x27, \x7b\n          configurable: false,\n          get: function() \x7b\n            return \x7b\n              href: currentHref,\n              protocol: \x27file:\x27,\n              host: \x27\x27,\n              hostname: \x27\x27,\n              port: \x27\x27,\n              pathname: currentHref,\n              search: \x27\x27,\n              hash: \x27\x27,\n              origin: \x27file://\x27,\n              replace: function() \x7b console.log(\x27Blocked location.replace\x27); \x7d,\n              assign: function() \x7b console.log(\x27Blocked location.assign\x27); \x7d,\n              reload: function() \x7b console.log(\x27Blocked location.reload\x27); \x7d,\n              toString: function() \x7b return currentHref; \x7d,\n              valueOf: function() \x7b return currentHref; \x7d\n            \x7d;\n          \x7d,\n          set: function(value) \x7b\n            console.log(\x27Blocked location set to:\x27, value);\n          \x7d\n        \x7d);\n        \n        // Block window.open\n        window.open = function() \x7b\n          console.log(\x27Blocked window.open\x27);\n          return null;\n        \x7d;\n        \n        // Block beforeunload\n        window.addEventListener(\x27beforeunload\x27, function(e) \x7b\n          e.preventDefault();\n          e.stopPropagation();\n          e.stopImmediatePropagation();\n          console.log(\x27Blocked beforeunload\x27);\n          return false;\n        \x7d, true);\n        \n        // Block all click events that might navigate\n        document.addEventListener(\x27click\x27, function(e) \x7b\n          var target = e.target;\n          while (target) \x7b\n            if (target.tagName === \x27A\x27 && target.href && target.href.includes(\x27sites.google.com\x27)) \x7b\n              e.preventDefault();\n              e.stopPropagation();\n              e.stopImmediatePropagation();\n              console.log(\x27Blocked click on link to:\x27, target.href);\n              return false;\n            \x7d\n            target = target.parentElement;\n          \x7d\n        \x7d, true);\n        \n        // Monitor and block meta refresh tags\n        setInterval(function() \x7b\n          var metas = document.getElementsByTagName(\x27meta\x27);\n          for (var i = 0; i < metas.length; i++) \x7b\n            if (metas[i].httpEquiv && metas[i].httpEquiv.toLowerCase() === \x27refresh\x27) \x7b\n              console.log(\x27Removed meta refresh tag\x27);\n              metas[i].remove();\n            \x7d\n          \x7d\n        \x7d, 100);\n        \n        console.log(\x27"

/-- Text of the `REDIRECT_BLOCKER` constant after the marker string. -/
def blockerPost : List Char :=
  lc " - All navigation blocked\x27);\n      \x7d)();\n    </script>\n"

/-- The already-processed marker `process_html_file` tests for. -/
def blockerMarker : List Char := lc "REDIRECT BLOCKER ACTIVE"

/-- The `REDIRECT_BLOCKER` script constant of `fix_all_html.py`, written as
the concatenation of the text before the marker, the marker itself and the
text after it (the concatenation is letter for letter the source constant;
the split makes the occurrence of the marker inside the script directly
available to proofs). -/
def REDIRECT_BLOCKER : List Char := blockerPre ++ blockerMarker ++ blockerPost

/-- The comment opener inserted before the first script after the last
`</style>` of the head section. -/
def cmtStart : List Char :=
  lc "\n    <!--SCRIPTS DISABLED TO PREVENT REDIRECT-->\n    <!--\n    "

/-- The replacement for `</head>` that closes the disabling comment. -/
def endCmt : List Char := lc "    END DISABLED SCRIPTS-->\n  </head>"

/-- The comment-splicing part of `process_html_file` in `fix_all_html.py`
(lines 119-144): find the last `</style>` of the head section, the next
`<script` after it, insert the comment opener there and close the comment at
the first `</head>`; when any lookup fails, keep `new_content` as is. -/
def fix_spliced (new1 : List Char) (head_end : Nat) : List Char :=
  match rfindSub (lc "</style>") (new1.take head_end) with
  | none => new1
  | some last_style_end =>
    match findFromSub (lc "<script") last_style_end (new1.take head_end) with
    | none => new1
    | some next_script =>
      if next_script < head_end then
        replaceFirstL (lc "</head>") endCmt (insertAtL next_script cmtStart new1)
      else new1

/-- Model of `process_html_file(filepath)` from `fix_all_html.py` on the
file's content: returns `(the value returned by the function, the content of
the file afterwards)`.  The content changes only on the single write the
source performs just before `return True`; every `return False` path leaves
the file untouched (in particular the paths that bail out after computing
`new_content` never write it). -/
def fix_process (content : List Char) : Bool × List Char :=
  if containsSeq blockerMarker content then (false, content)
  else
    let new1 := replaceFirstL (lc "<head>") (lc "<head>\n" ++ REDIRECT_BLOCKER) content
    if new1 = content then (false, content)
    else
      match findIdxSub (lc "</head>") new1 with
      | none => (false, content)
      | some head_end => (true, fix_spliced new1 head_end)

/-- The file content after one run of `process_html_file` over it. -/
def applyFix (content : List Char) : List Char := (fix_process content).2

/-- `containsSeq` decides the contiguous-subsequence (infix) relation. -/
theorem containsSeq_iff (u : List Char) : ∀ s, containsSeq u s = true ↔ u <:+: s
  | [] => by
    simp [containsSeq, List.isEmpty_iff]
  | c :: cs => by
    simp [containsSeq, containsSeq_iff u cs, List.infix_cons_iff]

/-- An infix occurrence exhibited by explicit parts makes `containsSeq` true. -/
theorem containsSeq_parts (u x y : List Char) : containsSeq u (x ++ u ++ y) = true := by
  rw [containsSeq_iff]
  exact ⟨x, y, rfl⟩

/-- If no suffix of the text matches, the literal-replacement scan is the
identity. -/
theorem subLitAux_no_match (m : List Char → Option Nat) (rep : List Char) :
    ∀ f s, (∀ t, t <:+ s → m t = none) → subLitAux m rep f s = s := by
  intro f
  induction f with
  | zero => intro s _; rfl
  | succ f ih =>
    intro s h
    cases s with
    | nil => rfl
    | cons c cs =>
      have h0 : m (c :: cs) = none := h _ (List.suffix_refl _)
      simp only [subLitAux, h0]
      have := ih cs (fun t ht => h t (ht.trans (List.suffix_cons c cs)))
      rw [this]

/-- If no suffix of the text matches, the function-replacement scan returns
the text unchanged with a zero count. -/
theorem subFunAux_no_match (m : List Char → Option Nat) (rf : List Char → List Char) :
    ∀ f s, (∀ t, t <:+ s → m t = none) → subFunAux m rf f s = (s, 0) := by
  intro f
  induction f with
  | zero => intro s _; rfl
  | succ f ih =>
    intro s h
    cases s with
    | nil => rfl
    | cons c cs =>
      have h0 : m (c :: cs) = none := h _ (List.suffix_refl _)
      simp only [subFunAux, h0]
      have := ih cs (fun t ht => h t (ht.trans (List.suffix_cons c cs)))
      rw [this]

/-- A successful case-insensitive literal match exhibits the lowered literal
as a prefix of the lowered text. -/
theorem mLitCI_pref {p s : List Char} {n : Nat} (h : mLitCI p s = some n) :
    lowerL p <+: lowerL s := by
  unfold mLitCI at h
  split at h
  · exact List.isPrefixOf_iff_prefix.mp (by assumption)
  · cases h

/-- Decompose a successful sequential match. -/
theorem mseq_some {m1 m2 : List Char → Option Nat} {s : List Char} {n : Nat}
    (h : mseq m1 m2 s = some n) :
    ∃ n1 n2, m1 s = some n1 ∧ m2 (s.drop n1) = some n2 := by
  unfold mseq at h
  split at h
  · exact absurd h (by simp)
  · rename_i n1 heq1
    split at h
    · exact absurd h (by simp)
    · rename_i k heq2
      exact ⟨n1, k, heq1, heq2⟩

/-- Decompose a successful alternative match. -/
theorem mAlt_some {m1 m2 : List Char → Option Nat} {s : List Char} {n : Nat}
    (h : mAlt m1 m2 s = some n) : m1 s = some n ∨ m2 s = some n := by
  unfold mAlt at h
  split at h
  · rename_i n1 heq
    injection h with hn
    subst hn
    exact Or.inl heq
  · exact Or.inr h

/-- Lowercasing commutes with `drop`. -/
theorem lowerL_drop (s : List Char) (k : Nat) : lowerL (s.drop k) = (lowerL s).drop k := by
  simp [lowerL, List.map_drop]

/-- A prefix of a dropped tail is an infix of the whole list. -/
theorem pref_drop_infix {u s : List Char} {k : Nat} (h : u <+: s.drop k) : u <:+: s := by
  obtain ⟨r, hr⟩ := h
  obtain ⟨l, hl⟩ := List.drop_suffix k s
  exact ⟨l, r, by rw [List.append_assoc, hr, hl]⟩

/-- A successful match of the `watch?v=` pattern contains the video id
(case-insensitively). -/
theorem ytWatchM_infix {vid s : List Char} {n : Nat} (h : ytWatchM vid s = some n) :
    lowerL vid <:+: lowerL s := by
  obtain ⟨a, _, _, h2⟩ := mseq_some h
  obtain ⟨c, _, _, h4⟩ := mseq_some h2
  obtain ⟨e, _, h5, _⟩ := mseq_some h4
  have hp := mLitCI_pref h5
  rw [List.drop_drop, lowerL_drop] at hp
  exact pref_drop_infix hp

/-- A successful match of the `embed/` pattern contains the video id. -/
theorem ytEmbedM_infix {vid s : List Char} {n : Nat} (h : ytEmbedM vid s = some n) :
    lowerL vid <:+: lowerL s := by
  obtain ⟨a, _, _, h2⟩ := mseq_some h
  obtain ⟨c, _, _, h4⟩ := mseq_some h2
  obtain ⟨e, _, h5, _⟩ := mseq_some h4
  have hp := mLitCI_pref h5
  rw [List.drop_drop, lowerL_drop] at hp
  exact pref_drop_infix hp

/-- A successful match of the `youtu.be/` pattern contains the video id. -/
theorem ytShortM_infix {vid s : List Char} {n : Nat} (h : ytShortM vid s = some n) :
    lowerL vid <:+: lowerL s := by
  obtain ⟨a, _, _, h2⟩ := mseq_some h
  obtain ⟨c, _, _, h4⟩ := mseq_some h2
  obtain ⟨e, _, h5, _⟩ := mseq_some h4
  have hp := mLitCI_pref h5
  rw [List.drop_drop, lowerL_drop] at hp
  exact pref_drop_infix hp

/-- From absence of the identifier in the document, every suffix of the
document fails to match, for any matcher that exhibits the identifier. -/
theorem no_match_of_not_contains {M : List Char → Option Nat} {u doc : List Char}
    (hM : ∀ s n, M s = some n → lowerL u <:+: lowerL s)
    (hc : containsSeq (lowerL u) (lowerL doc) = false) :
    ∀ t, t <:+ doc → M t = none := by
  intro t ht
  cases hMt : M t with
  | none => rfl
  | some n =>
    exfalso
    have hin : lowerL u <:+: lowerL doc :=
      (hM _ _ hMt).trans (List.IsSuffix.isInfix (by simpa [lowerL] using ht.map Char.toLower))
    rw [← containsSeq_iff] at hin
    rw [hin] at hc
    cases hc

/-- When nothing matches, one `re.sub` step of the YouTube rewriter is the
identity. -/
theorem ytApplyPattern_skip {m : List Char → Option Nat} {lp : List Char}
    {st : List Char × Nat} (h : ∀ t, t <:+ st.1 → m t = none) :
    ytApplyPattern m lp st = st := by
  have hs : subLit m lp st.1 = st.1 := subLitAux_no_match m lp st.1.length st.1 h
  simp [ytApplyPattern, hs]

/-- C1 (amended): for the YouTube rewriter, replacing a set of references
alters nothing in a document that does not contain any of their identifiers
as a case-insensitive substring; in particular text referring only to a
reference R2 whose URL does not contain R1's identifier is never altered by
replacing R1.  (The original claim, allowing R1's identifier to be a proper
prefix of R2's, is refuted by
`youtube_rewrite_prefix_cross_replacement_cex`.) -/
theorem youtube_rewrite_untouched_without_identifier (doc : List Char)
    (mp : List (List Char × List Char))
    (h : ∀ kv ∈ mp, containsSeq (lowerL kv.1) (lowerL doc) = false) :
    replace_youtube_links doc mp = (doc, 0) := by
  unfold replace_youtube_links
  have key : ∀ (l : List (List Char × List Char)) (st : List Char × Nat),
      st.1 = doc → (∀ kv ∈ l, containsSeq (lowerL kv.1) (lowerL doc) = false) →
      l.foldl ytStep st = st := by
    intro l
    induction l with
    | nil => intro st _ _; rfl
    | cons kv rest ih =>
      intro st hst hl
      have hkv : containsSeq (lowerL kv.1) (lowerL doc) = false :=
        hl kv (List.mem_cons_self kv rest)
      have hw : ytApplyPattern (ytWatchM kv.1) kv.2 st = st :=
        ytApplyPattern_skip (hst ▸ no_match_of_not_contains (fun _ _ => ytWatchM_infix) hkv)
      have he : ytApplyPattern (ytEmbedM kv.1) kv.2 st = st :=
        ytApplyPattern_skip (hst ▸ no_match_of_not_contains (fun _ _ => ytEmbedM_infix) hkv)
      have hs : ytApplyPattern (ytShortM kv.1) kv.2 st = st :=
        ytApplyPattern_skip (hst ▸ no_match_of_not_contains (fun _ _ => ytShortM_infix) hkv)
      have hstep : ytStep st kv = st := by
        unfold ytStep
        rw [hw, he, hs]
      rw [List.foldl_cons, hstep]
      exact ih st hst (fun kv2 hkv2 => hl kv2 (List.mem_cons_of_mem kv hkv2))
  exact key mp (doc, 0) rfl h

/-- Witness for `youtube_rewrite_untouched_without_identifier` at a concrete
document carrying only the reference with id `wxyz` and a mapping for the
distinct id `abc`. -/
theorem youtube_rewrite_untouched_without_identifier_witness :
    (∀ kv ∈ [(lc "abc", lc "videos/youtube_1.mp4")],
        containsSeq (lowerL kv.1) (lowerL (lc "https://youtu.be/wxyz")) = false) ∧
    replace_youtube_links (lc "https://youtu.be/wxyz")
      [(lc "abc", lc "videos/youtube_1.mp4")] = (lc "https://youtu.be/wxyz", 0) := by
  have h : ∀ kv ∈ [(lc "abc", lc "videos/youtube_1.mp4")],
      containsSeq (lowerL kv.1) (lowerL (lc "https://youtu.be/wxyz")) = false := by decide
  exact ⟨h, youtube_rewrite_untouched_without_identifier _ _ h⟩

/-- Counterexample to C1 as stated: the document `https://youtu.be/abcd`
refers only to the identity `abcd` (its extraction yields exactly that id),
yet rewriting the distinct identity `abc` — a proper prefix — rewrites the
whole reference, because the pattern ends in the greedy tail
`[^"\'<>\s]*` rather than requiring the identifier to end. -/
theorem youtube_rewrite_prefix_cross_replacement_cex :
    lc "abc" ≠ lc "abcd" ∧
    extract_youtube_ids (lc "https://youtu.be/abcd") = [lc "abcd"] ∧
    (replace_youtube_links (lc "https://youtu.be/abcd")
        [(lc "abc", lc "videos/youtube_1.mp4")]).1 ≠ lc "https://youtu.be/abcd" := by
  refine ⟨by decide, by decide, by decide⟩

/-- A successful match of a quoted-attribute context contains the mapped URL
(case-insensitively). -/
theorem ctxAttrM_infix {attr url s : List Char} {n : Nat}
    (h : ctxAttrM attr url s = some n) : lowerL url <:+: lowerL s := by
  obtain ⟨a, _, _, h2⟩ := mseq_some h
  obtain ⟨b, _, _, h4⟩ := mseq_some h2
  obtain ⟨e, _, h5, _⟩ := mseq_some h4
  have hp := mLitCI_pref h5
  rw [List.drop_drop, lowerL_drop] at hp
  exact pref_drop_infix hp

/-- A successful match of the `url(...)` context contains the mapped URL
(case-insensitively). -/
theorem ctxUrlParenM_infix {url s : List Char} {n : Nat}
    (h : ctxUrlParenM url s = some n) : lowerL url <:+: lowerL s := by
  obtain ⟨a, _, _, h2⟩ := mseq_some h
  rcases mAlt_some h2 with h3 | h3
  · obtain ⟨b, _, _, h4⟩ := mseq_some h3
    obtain ⟨e, _, h5, _⟩ := mseq_some h4
    have hp := mLitCI_pref h5
    rw [List.drop_drop, lowerL_drop] at hp
    exact pref_drop_infix hp
  · obtain ⟨e, _, h5, _⟩ := mseq_some h3
    have hp := mLitCI_pref h5
    rw [lowerL_drop] at hp
    exact pref_drop_infix hp

/-- When nothing matches, one context step of the image rewriter is the
identity. -/
theorem imgApplyPattern_skip {m : List Char → Option Nat} {url lp : List Char}
    {st : List Char × Nat} (h : ∀ t, t <:+ st.1 → m t = none) :
    imgApplyPattern m url lp st = st := by
  have hs : subFun m (fun g0 => strReplace g0 url lp) st.1 = (st.1, 0) :=
    subFunAux_no_match m _ st.1.length st.1 h
  simp [imgApplyPattern, hs]

/-- When a mapped URL does not occur (case-insensitively) in the current
text, its whole rewriting step is the identity. -/
theorem imgStep_skip (st : List Char × Nat) (kv : List Char × List Char)
    (h : containsSeq (lowerL kv.1) (lowerL st.1) = false) : imgStep st kv = st := by
  have h1 : imgApplyPattern (ctxAttrM (lc "src=") kv.1) kv.1 (lc "images/" ++ kv.2) st = st :=
    imgApplyPattern_skip (no_match_of_not_contains (fun _ _ => ctxAttrM_infix) h)
  have h2 : imgApplyPattern (ctxAttrM (lc "srcset=") kv.1) kv.1 (lc "images/" ++ kv.2) st = st :=
    imgApplyPattern_skip (no_match_of_not_contains (fun _ _ => ctxAttrM_infix) h)
  have h3 : imgApplyPattern (ctxUrlParenM kv.1) kv.1 (lc "images/" ++ kv.2) st = st :=
    imgApplyPattern_skip (no_match_of_not_contains (fun _ _ => ctxUrlParenM_infix) h)
  have h4 : imgApplyPattern (ctxAttrM (lc "href=") kv.1) kv.1 (lc "images/" ++ kv.2) st = st :=
    imgApplyPattern_skip (no_match_of_not_contains (fun _ _ => ctxAttrM_infix) h)
  unfold imgStep
  rw [h1, h2, h3, h4]

/-- If no mapped URL occurs in a text, the whole image rewrite of that text
is the identity with zero replacements. -/
theorem replace_image_links_skip (doc : List Char)
    (mp : List (List Char × List Char))
    (h : ∀ kv ∈ mp, containsSeq (lowerL kv.1) (lowerL doc) = false) :
    replace_image_links doc mp = (doc, 0) := by
  unfold replace_image_links
  have key : ∀ (l : List (List Char × List Char)) (st : List Char × Nat),
      st.1 = doc → (∀ kv ∈ l, containsSeq (lowerL kv.1) (lowerL doc) = false) →
      l.foldl imgStep st = st := by
    intro l
    induction l with
    | nil => intro st _ _; rfl
    | cons kv rest ih =>
      intro st hst hl
      have hkv : containsSeq (lowerL kv.1) (lowerL doc) = false :=
        hl kv (List.mem_cons_self kv rest)
      have hstep : imgStep st kv = st := imgStep_skip st kv (hst ▸ hkv)
      rw [List.foldl_cons, hstep]
      exact ih st hst (fun kv2 hkv2 => hl kv2 (List.mem_cons_of_mem kv hkv2))
  exact key mp (doc, 0) rfl h

/-- C5 (amended): the image rewrite is idempotent on every document whose
first pass actually eliminates all occurrences of the mapped URLs — the
second pass then reports zero replacements and returns the text unchanged.
(The unconditional claim is refuted by
`image_rewrite_not_idempotent_cex`: a case-variant occurrence is counted and
left in place by the first pass, so the second pass counts it again.) -/
theorem image_rewrite_idempotent_when_urls_removed (doc : List Char)
    (mp : List (List Char × List Char))
    (h : ∀ kv ∈ mp,
        containsSeq (lowerL kv.1) (lowerL (replace_image_links doc mp).1) = false) :
    replace_image_links (replace_image_links doc mp).1 mp =
      ((replace_image_links doc mp).1, 0) :=
  replace_image_links_skip (replace_image_links doc mp).1 mp h

/-- Witness for `image_rewrite_idempotent_when_urls_removed`: a concrete
document whose single reference is mapped and replaced exactly. -/
theorem image_rewrite_idempotent_when_urls_removed_witness :
    (∀ kv ∈ [(lc "http://a/b.png", lc "image_1.png")],
        containsSeq (lowerL kv.1)
          (lowerL (replace_image_links (lc "<img src=\"http://a/b.png\">")
              [(lc "http://a/b.png", lc "image_1.png")]).1) = false) ∧
    replace_image_links
        (replace_image_links (lc "<img src=\"http://a/b.png\">")
            [(lc "http://a/b.png", lc "image_1.png")]).1
        [(lc "http://a/b.png", lc "image_1.png")] =
      ((replace_image_links (lc "<img src=\"http://a/b.png\">")
          [(lc "http://a/b.png", lc "image_1.png")]).1, 0) := by
  have h : ∀ kv ∈ [(lc "http://a/b.png", lc "image_1.png")],
      containsSeq (lowerL kv.1)
        (lowerL (replace_image_links (lc "<img src=\"http://a/b.png\">")
            [(lc "http://a/b.png", lc "image_1.png")]).1) = false := by decide
  exact ⟨h, image_rewrite_idempotent_when_urls_removed _ _ h⟩

/-- Counterexample to C5 as stated: for the document `src="HTTP://X"` and
the mapping `http://x ↦ f.png`, the pattern matches case-insensitively but
`group(0).replace(url, ...)` replaces case-sensitively, so the first pass
counts one replacement while leaving the text intact, and the second pass
reports one further replacement instead of zero. -/
theorem image_rewrite_not_idempotent_cex :
    (replace_image_links
        (replace_image_links (lc "src=\"HTTP://X\"") [(lc "http://x", lc "f.png")]).1
        [(lc "http://x", lc "f.png")]).2 ≠ 0 := by decide

/-- A rewriting stage is conservative when it never decreases the
replacement counter and is the identity whenever it does not strictly
increase it. -/
def Conservative (f : (List Char × Nat) → (List Char × Nat)) : Prop :=
  (∀ st, st.2 ≤ (f st).2) ∧ ∀ st, f st = st ∨ st.2 < (f st).2

/-- Conservativity is closed under composition. -/
theorem Conservative.comp {f g : (List Char × Nat) → (List Char × Nat)}
    (hf : Conservative f) (hg : Conservative g) :
    Conservative (fun st => g (f st)) := by
  constructor
  · intro st
    exact le_trans (hf.1 st) (hg.1 (f st))
  · intro st
    show g (f st) = st ∨ st.2 < (g (f st)).2
    rcases hf.2 st with h1 | h1
    · rw [h1]
      exact hg.2 st
    · exact Or.inr (lt_of_lt_of_le h1 (hg.1 (f st)))

/-- Each context step of the image rewriter is conservative: the counter
grows exactly when the guarded substitution fires. -/
theorem conservative_imgApplyPattern (m : List Char → Option Nat) (url lp : List Char) :
    Conservative (fun st => imgApplyPattern m url lp st) := by
  constructor
  · intro st
    show st.2 ≤ (imgApplyPattern m url lp st).2
    simp only [imgApplyPattern]
    split
    · exact Nat.le_add_right _ _
    · exact le_refl _
  · intro st
    show imgApplyPattern m url lp st = st ∨ st.2 < (imgApplyPattern m url lp st).2
    simp only [imgApplyPattern]
    split
    · rename_i hgt
      exact Or.inr (Nat.lt_add_of_pos_right hgt)
    · exact Or.inl rfl

/-- One mapped URL's whole rewriting step is conservative. -/
theorem conservative_imgStep (kv : List Char × List Char) :
    Conservative (fun st => imgStep st kv) := by
  unfold imgStep
  exact Conservative.comp
    (Conservative.comp
      (Conservative.comp
        (conservative_imgApplyPattern (ctxAttrM (lc "src=") kv.1) kv.1 (lc "images/" ++ kv.2))
        (conservative_imgApplyPattern (ctxAttrM (lc "srcset=") kv.1) kv.1 (lc "images/" ++ kv.2)))
      (conservative_imgApplyPattern (ctxUrlParenM kv.1) kv.1 (lc "images/" ++ kv.2)))
    (conservative_imgApplyPattern (ctxAttrM (lc "href=") kv.1) kv.1 (lc "images/" ++ kv.2))

/-- The counter of the full image-rewrite fold never decreases. -/
theorem foldl_imgStep_le (mp : List (List Char × List Char)) :
    ∀ st, st.2 ≤ (List.foldl imgStep st mp).2 := by
  induction mp with
  | nil => intro st; exact le_refl _
  | cons kv rest ih =>
    intro st
    rw [List.foldl_cons]
    exact le_trans ((conservative_imgStep kv).1 st) (ih (imgStep st kv))

/-- The full image-rewrite fold either leaves its state unchanged or
strictly increases the counter. -/
theorem foldl_imgStep_cases (mp : List (List Char × List Char)) :
    ∀ st, List.foldl imgStep st mp = st ∨ st.2 < (List.foldl imgStep st mp).2 := by
  induction mp with
  | nil => intro st; exact Or.inl rfl
  | cons kv rest ih =>
    intro st
    rw [List.foldl_cons]
    rcases (conservative_imgStep kv).2 st with h1 | h1
    · have h1a : imgStep st kv = st := h1
      rw [h1a]
      exact ih st
    · have h1a : st.2 < (imgStep st kv).2 := h1
      exact Or.inr (lt_of_lt_of_le h1a (foldl_imgStep_le rest (imgStep st kv)))

/-- C9 (amended): when the image rewriter reports zero replacements it
returns the document byte-for-byte unchanged.  (The converse direction of
the original claim — a positive count always modifies the document — is
refuted by `image_rewrite_count_without_change_cex`.) -/
theorem image_rewrite_zero_count_unchanged (doc : List Char)
    (mp : List (List Char × List Char))
    (h : (replace_image_links doc mp).2 = 0) :
    (replace_image_links doc mp).1 = doc := by
  rcases foldl_imgStep_cases mp (doc, 0) with h1 | h1
  · show (List.foldl imgStep (doc, 0) mp).1 = doc
    rw [h1]
  · exfalso
    have h1a : 0 < (List.foldl imgStep (doc, 0) mp).2 := h1
    have h0 : (List.foldl imgStep (doc, 0) mp).2 = 0 := h
    omega

/-- Witness for `image_rewrite_zero_count_unchanged` at a document without
any occurrence of the mapped URL. -/
theorem image_rewrite_zero_count_unchanged_witness :
    (replace_image_links (lc "<p>hi</p>") [(lc "http://z/q.png", lc "f.png")]).2 = 0 ∧
    (replace_image_links (lc "<p>hi</p>") [(lc "http://z/q.png", lc "f.png")]).1 =
      lc "<p>hi</p>" := by
  have h : (replace_image_links (lc "<p>hi</p>") [(lc "http://z/q.png", lc "f.png")]).2 = 0 := by
    decide
  exact ⟨h, image_rewrite_zero_count_unchanged _ _ h⟩

/-- Counterexample to C9 as stated: on `src="HTTP://Y"` with the mapping
`http://y ↦ f.png`, the rewriter reports one replacement (the pattern match
is case-insensitive) yet returns the document unchanged (the inner
`str.replace` of the matched text is case-sensitive and finds nothing). -/
theorem image_rewrite_count_without_change_cex :
    (replace_image_links (lc "src=\"HTTP://Y\"") [(lc "http://y", lc "f.png")]).2 = 1 ∧
    (replace_image_links (lc "src=\"HTTP://Y\"") [(lc "http://y", lc "f.png")]).1 =
      lc "src=\"HTTP://Y\"" := by decide

/-- The first-occurrence deduplication yields a duplicate-free list none of
whose elements lie in the `seen` accumulator. -/
theorem dedupFirstAux_spec :
    ∀ (l seen : List (List Char)),
      (dedupFirstAux seen l).Nodup ∧ ∀ x ∈ dedupFirstAux seen l, x ∉ seen := by
  intro l
  induction l with
  | nil =>
    intro seen
    exact ⟨List.nodup_nil, by intro x hx; simp [dedupFirstAux] at hx⟩
  | cons x xs ih =>
    intro seen
    by_cases hx : x ∈ seen
    · constructor
      · simpa [dedupFirstAux, hx] using (ih seen).1
      · intro y hy
        simp only [dedupFirstAux, if_pos hx] at hy
        exact (ih seen).2 y hy
    · constructor
      · simp only [dedupFirstAux, if_neg hx]
        rw [List.nodup_cons]
        exact ⟨fun hm => (ih (x :: seen)).2 x hm (List.mem_cons_self x seen),
          (ih (x :: seen)).1⟩
      · intro y hy
        simp only [dedupFirstAux, if_neg hx, List.mem_cons] at hy
        rcases hy with rfl | hy
        · exact hx
        · exact fun hs => (ih (x :: seen)).2 y hy (List.mem_cons_of_mem x hs)

/-- Extraction output never contains the same URL twice. -/
theorem extract_image_links_nodup (c : List Char) : (extract_image_links c).Nodup :=
  (dedupFirstAux_spec _ []).1

/-- Invariant of the aggregated `all_images` index: keys are distinct and
every recorded document path of every entry is duplicate-free and drawn from
the set of already-processed documents. -/
def AggInv (allowed : List (List Char)) (acc : List (List Char × List (List Char))) : Prop :=
  (acc.map Prod.fst).Nodup ∧ ∀ e ∈ acc, e.2.Nodup ∧ ∀ x ∈ e.2, x ∈ allowed

/-- Strengthened invariant during one document's inner fold: the current
path `p` may additionally appear in an entry, but only when that entry's URL
is among the already-processed URLs `done` of this document. -/
def AggInvIn (allowed : List (List Char)) (p : List Char) (done : List (List Char))
    (acc : List (List Char × List (List Char))) : Prop :=
  (acc.map Prod.fst).Nodup ∧
  ∀ e ∈ acc, e.2.Nodup ∧ ∀ x ∈ e.2, x ∈ allowed ∨ (x = p ∧ e.1 ∈ done)

/-- Keys after `addMembership`: unchanged when the URL was present, the URL
appended at the end otherwise. -/
theorem addMembership_keys :
    ∀ (acc : List (List Char × List (List Char))) (u p : List Char),
      (addMembership acc u p).map Prod.fst =
        if u ∈ acc.map Prod.fst then acc.map Prod.fst
        else acc.map Prod.fst ++ [u] := by
  intro acc
  induction acc with
  | nil => intro u p; simp [addMembership]
  | cons e rest ih =>
    intro u p
    by_cases he : e.1 = u
    · simp [addMembership, he]
    · have hne : ¬(u = e.1) := fun h => he h.symm
      simp only [addMembership, if_neg he, List.map_cons, ih, List.mem_cons, hne,
        false_or]
      by_cases hu : u ∈ rest.map Prod.fst
      · simp [hu]
      · simp [hu]

/-- Membership in `addMembership acc u p`: an element is either an untouched
entry of `acc`, the entry for `u` with `p` appended, or the fresh entry
`(u, [p])`. -/
theorem addMembership_mem_cases {e : List Char × List (List Char)} {u p : List Char} :
    ∀ acc, e ∈ addMembership acc u p →
      e ∈ acc ∨ (∃ ds, (u, ds) ∈ acc ∧ e = (u, ds ++ [p])) ∨ e = (u, [p]) := by
  intro acc
  induction acc with
  | nil =>
    intro h
    simp only [addMembership, List.mem_singleton] at h
    exact Or.inr (Or.inr h)
  | cons a rest ih =>
    intro h
    by_cases ha : a.1 = u
    · simp only [addMembership, if_pos ha, List.mem_cons] at h
      rcases h with rfl | h
      · refine Or.inr (Or.inl ⟨a.2, ?_, by rw [ha]⟩)
        rw [← ha]
        exact List.mem_cons_self a rest
      · exact Or.inl (List.mem_cons_of_mem a h)
    · simp only [addMembership, if_neg ha, List.mem_cons] at h
      rcases h with rfl | h
      · exact Or.inl (List.mem_cons_self e rest)
      · rcases ih h with h1 | h1 | h1
        · exact Or.inl (List.mem_cons_of_mem a h1)
        · rcases h1 with ⟨ds, hds, hde⟩
          exact Or.inr (Or.inl ⟨ds, List.mem_cons_of_mem a hds, hde⟩)
        · exact Or.inr (Or.inr h1)

/-- One `addMembership` step preserves the inner-fold invariant, moving the
URL into the processed set. -/
theorem addMembership_invIn {allowed : List (List Char)} {p u : List Char}
    {done : List (List Char)} {acc : List (List Char × List (List Char))}
    (hp : p ∉ allowed) (hud : u ∉ done) (h : AggInvIn allowed p done acc) :
    AggInvIn allowed p (u :: done) (addMembership acc u p) := by
  constructor
  · rw [addMembership_keys]
    split
    · exact h.1
    · rename_i h2
      rw [List.nodup_append]
      exact ⟨h.1, List.nodup_singleton u, by simpa using h2⟩
  · intro e he
    rcases addMembership_mem_cases acc he with h1 | h1 | h1
    · refine ⟨(h.2 e h1).1, fun x hx => ?_⟩
      rcases (h.2 e h1).2 x hx with h2 | h2
      · exact Or.inl h2
      · exact Or.inr ⟨h2.1, List.mem_cons_of_mem u h2.2⟩
    · rcases h1 with ⟨ds, hds, rfl⟩
      have hold := h.2 (u, ds) hds
      have hds_allowed : ∀ x ∈ ds, x ∈ allowed := by
        intro x hx
        rcases hold.2 x hx with h2 | h2
        · exact h2
        · exact absurd h2.2 hud
      have hpds : p ∉ ds := fun hmem => hp (hds_allowed p hmem)
      constructor
      · rw [List.nodup_append]
        exact ⟨hold.1, List.nodup_singleton p, by simpa using hpds⟩
      · intro x hx
        rcases List.mem_append.mp hx with h2 | h2
        · exact Or.inl (hds_allowed x h2)
        · refine Or.inr ⟨List.mem_singleton.mp h2, List.mem_cons_self u done⟩
    · subst h1
      refine ⟨List.nodup_singleton p, fun x hx => ?_⟩
      exact Or.inr ⟨List.mem_singleton.mp hx, List.mem_cons_self u done⟩

/-- The inner fold over a duplicate-free URL list preserves the invariant
for some enlarged processed set. -/
theorem aggInner_fold {allowed : List (List Char)} {p : List Char} (hp : p ∉ allowed) :
    ∀ (urls : List (List Char)) (done : List (List Char))
      (acc : List (List Char × List (List Char))),
      urls.Nodup → (∀ u ∈ urls, u ∉ done) → AggInvIn allowed p done acc →
      ∃ d2, AggInvIn allowed p d2
        (urls.foldl (fun a u => addMembership a u p) acc) := by
  intro urls
  induction urls with
  | nil => intro done acc _ _ h; exact ⟨done, h⟩
  | cons u rest ih =>
    intro done acc hnd hdone h
    rw [List.foldl_cons]
    refine ih (u :: done) (addMembership acc u p) (List.Nodup.of_cons hnd) ?_
      (addMembership_invIn hp (hdone u (List.mem_cons_self u rest)) h)
    intro v hv
    rw [List.mem_cons]
    rintro (rfl | hvd)
    · exact (List.nodup_cons.mp hnd).1 hv
    · exact hdone v (List.mem_cons_of_mem u hv) hvd

/-- Aggregating one unseen document preserves the outer invariant, enlarging
the set of processed documents by the document's path. -/
theorem aggFile_inv {allowed : List (List Char)} {p content : List Char}
    {acc : List (List Char × List (List Char))}
    (hp : p ∉ allowed) (h : AggInv allowed acc) :
    AggInv (p :: allowed) (aggFile acc p content) := by
  have h0 : AggInvIn allowed p [] acc := by
    refine ⟨h.1, fun e he => ⟨(h.2 e he).1, fun x hx => Or.inl ((h.2 e he).2 x hx)⟩⟩
  obtain ⟨d2, h2⟩ :=
    aggInner_fold hp (extract_image_links content) [] acc
      (extract_image_links_nodup content) (by simp) h0
  refine ⟨h2.1, fun e he => ⟨(h2.2 e he).1, fun x hx => ?_⟩⟩
  rcases (h2.2 e he).2 x hx with h3 | h3
  · exact List.mem_cons_of_mem p h3
  · rw [h3.1]
    exact List.mem_cons_self p allowed

/-- The aggregation of a run over documents with distinct paths satisfies
the index invariant for some set of processed paths. -/
theorem aggregate_inv :
    ∀ (files : List (List Char × List Char)) (allowed : List (List Char))
      (acc : List (List Char × List (List Char))),
      (files.map Prod.fst).Nodup → (∀ q ∈ files.map Prod.fst, q ∉ allowed) →
      AggInv allowed acc →
      ∃ allowed2, AggInv allowed2
        (files.foldl (fun a pc => aggFile a pc.1 pc.2) acc) := by
  intro files
  induction files with
  | nil => intro allowed acc _ _ h; exact ⟨allowed, h⟩
  | cons pc rest ih =>
    intro allowed acc hnd hall h
    rw [List.foldl_cons]
    have hp : pc.1 ∉ allowed := hall pc.1 (by simp)
    refine ih (pc.1 :: allowed) (aggFile acc pc.1 pc.2)
      (by simpa using (List.nodup_cons.mp (by simpa using hnd)).2) ?_
      (aggFile_inv hp h)
    intro q hq
    rw [List.mem_cons]
    rintro (rfl | hqa)
    · exact (List.nodup_cons.mp (by simpa using hnd)).1 hq
    · exact hall q (List.mem_cons_of_mem _ hq) hqa

/-- C4 (amended): extraction output is deduplicated by identity within a
document, and in the aggregated index built by `main` each reference records
each document's membership exactly once (its document list is
duplicate-free) whenever the walked document paths are distinct.  (The
original claim's further assertion that the aggregated output preserves
first-seen order of references is refuted by
`extract_image_links_order_cex`: the per-pattern scan groups all `<img src>`
matches before all CSS-background matches, and the final `list(set(...))`
enumeration order is unspecified besides.) -/
theorem extraction_dedup_and_membership_once :
    (∀ c : List Char, (extract_image_links c).Nodup) ∧
    ∀ files : List (List Char × List Char), (files.map Prod.fst).Nodup →
      ∀ e ∈ aggregate files, e.2.Nodup := by
  constructor
  · exact extract_image_links_nodup
  · intro files hnd e he
    obtain ⟨allowed2, h2⟩ :=
      aggregate_inv files [] [] hnd (by simp) ⟨List.nodup_nil, by simp⟩
    exact (h2.2 e he).1

/-- Witness for `extraction_dedup_and_membership_once`: a single document
referencing the same URL twice — once as an `<img src>` and once as a CSS
background — yields one reference with its document recorded once. -/
theorem extraction_dedup_and_membership_once_witness :
    ([(lc "p.html",
        lc "<img x src=\"https://h/a.png\">background-image: url('https://h/a.png')")].map
          Prod.fst).Nodup ∧
    aggregate [(lc "p.html",
        lc "<img x src=\"https://h/a.png\">background-image: url('https://h/a.png')")] =
      [(lc "https://h/a.png", [lc "p.html"])] ∧
    ∀ e ∈ aggregate [(lc "p.html",
        lc "<img x src=\"https://h/a.png\">background-image: url('https://h/a.png')")],
      e.2.Nodup := by
  refine ⟨by decide, by decide, ?_⟩
  exact extraction_dedup_and_membership_once.2 _ (by decide)

/-- Counterexample to C4's order clause: in a document whose CSS-background
reference precedes its `<img src>` reference textually, extraction (and
hence the aggregated index) lists the `<img src>` URL first, because the
patterns are scanned one after the other over the whole document. -/
theorem extract_image_links_order_cex :
    extract_image_links
        (lc "background-image: url('https://h/a.png')<img x src=\"https://h/b.png\">") =
      [lc "https://h/b.png", lc "https://h/a.png"] ∧
    (findIdxSub (lc "https://h/a.png")
        (lc "background-image: url('https://h/a.png')<img x src=\"https://h/b.png\">")).getD 999 <
      (findIdxSub (lc "https://h/b.png")
        (lc "background-image: url('https://h/a.png')<img x src=\"https://h/b.png\">")).getD 0 := by
  refine ⟨by decide, by decide⟩

/-- C7: extraction is a total function of the document text (the embedding
is a total Lean function, mirroring that the source never raises on
malformed markup), and on truncated inputs — an `<img src="https://` with no
closing quote, an unterminated quoted attribute, and an unterminated CSS
`url(` — it extracts zero references. -/
theorem extraction_total_on_truncated_input :
    extract_image_links (lc "<img src=\"https://") = [] ∧
    extract_image_links (lc "<img a src='x") = [] ∧
    extract_image_links (lc "background-image: url('https://h") = [] := by
  refine ⟨by decide, by decide, by decide⟩

/-- C2 (amended): within one document, the gdown extractor yields every
Google Drive file id exactly once, so the per-document download loop of
`download_videos_gdown.py` fetches at most one asset per identity per
document.  (Per-run uniqueness, and uniqueness for `download_videos.py`, is
refuted by `drive_fetch_duplicate_assets_cex`.) -/
theorem gdown_extraction_one_per_identity (c : List Char) :
    (extract_google_drive_file_ids c).Nodup :=
  (dedupFirstAux_spec _ []).1

/-- Counterexample to C2 as stated: a document referencing file id `ABC123`
through two URL forms.  `extract_google_drive_links` of `download_videos.py`
returns the same download URL twice (no deduplication by identity), and the
fetch loop then stores two distinct local assets `video_1.mp4` and
`video_2.mp4` for the single identity; no rewrite step exists in these
scripts at all. -/
theorem drive_fetch_duplicate_assets_cex :
    extract_google_drive_links
        (lc "<img src=\"https://drive.google.com/file/d/ABC123/view\"> <a href=\"https://drive.google.com/open?id=ABC123\">x</a>") =
      [lc "https://drive.google.com/uc?export=download&id=ABC123",
       lc "https://drive.google.com/uc?export=download&id=ABC123"] ∧
    process_html_file_dv
        (lc "<img src=\"https://drive.google.com/file/d/ABC123/view\"> <a href=\"https://drive.google.com/open?id=ABC123\">x</a>")
        [] (fun _ => true) =
      (2, [videoFileName 2, videoFileName 1]) ∧
    videoFileName 1 ≠ videoFileName 2 := by
  refine ⟨by decide, by decide, by decide⟩

/-- C3 (amended): the video fetchers are idempotent skips — when the
destination file already exists, `download_file` of `download_videos.py` and
`download_video` of `download_videos_gdown.py` return success without a
transport call and leave the filesystem unchanged.  (The image fetcher is
not: see `image_fetch_no_skip_cex`.) -/
theorem video_fetch_skips_existing (fs : List (List Char)) (n : Nat) (tOk : Bool)
    (r : GdownRes) (h : videoFileName n ∈ fs) :
    download_file fs n tOk = (true, false, fs) ∧
    download_video true r = (true, false, true) := by
  constructor
  · simp [download_file, h]
  · rfl

/-- Witness for `video_fetch_skips_existing` with `video_1.mp4` present. -/
theorem video_fetch_skips_existing_witness :
    videoFileName 1 ∈ [videoFileName 1] ∧
    download_file [videoFileName 1] 1 true = (true, false, [videoFileName 1]) ∧
    download_video true (GdownRes.completed none) = (true, false, true) := by
  have h : videoFileName 1 ∈ [videoFileName 1] := by decide
  exact ⟨h, video_fetch_skips_existing [videoFileName 1] 1 true (GdownRes.completed none) h⟩

/-- Counterexample to C3 as stated: `download_image` of
`download_images.py` contains no existence check whatsoever — even when the
destination file already exists it issues the HTTP request (second component
`true`), so re-running re-downloads every image. -/
theorem image_fetch_no_skip_cex :
    (download_image true Transport.ok).2 = true := by decide

/-- C6: the image batch loop attempts every aggregated reference in order no
matter how many fetches fail, the number downloaded is exactly the number of
successful transports, and every failing transport outcome (non-2xx status,
timeout, or other exception) is returned as `False` by `download_image`
rather than raised. -/
theorem image_batch_failure_isolation (urls : List (List Char))
    (tr : List Char → Transport) :
    (mainImagesLoop urls tr).1 = urls ∧
    (mainImagesLoop urls tr).2 =
      (urls.filter fun u => (download_image false (tr u)).1).length ∧
    ∀ t : Transport, t ≠ Transport.ok → (download_image false t).1 = false := by
  refine ⟨?_, ?_, ?_⟩
  · induction urls with
    | nil => rfl
    | cons u rest ih => simp [mainImagesLoop, ih]
  · induction urls with
    | nil => rfl
    | cons u rest ih =>
      by_cases hu : (download_image false (tr u)).1 = true
      · simp [mainImagesLoop, List.filter, hu, ih]
        omega
      · simp [mainImagesLoop, List.filter, hu, ih]
  · intro t ht
    cases t with
    | ok => exact absurd rfl ht
    | httpErr => rfl
    | timeout => rfl
    | exc => rfl

/-- Witness for `image_batch_failure_isolation`: a concrete three-reference
batch whose middle fetch times out still attempts all three and downloads
the other two, and the timeout outcome maps to a `False` return. -/
theorem image_batch_failure_isolation_witness :
    (mainImagesLoop [lc "http://a", lc "http://b", lc "http://c"]
        (fun u => if u = lc "http://b" then Transport.timeout else Transport.ok)).1 =
      [lc "http://a", lc "http://b", lc "http://c"] ∧
    (mainImagesLoop [lc "http://a", lc "http://b", lc "http://c"]
        (fun u => if u = lc "http://b" then Transport.timeout else Transport.ok)).2 = 2 ∧
    Transport.timeout ≠ Transport.ok ∧
    (download_image false Transport.timeout).1 = false := by
  have h := image_batch_failure_isolation [lc "http://a", lc "http://b", lc "http://c"]
    (fun u => if u = lc "http://b" then Transport.timeout else Transport.ok)
  have hne : Transport.timeout ≠ Transport.ok := by decide
  exact ⟨h.1, by decide, hne, h.2.2 Transport.timeout hne⟩

/-- C8 (amended): when the downloader call returns normally and
`download_video` reports failure (the destination file is missing or
empty), the partial file has been removed, so no on-disk state remains; but
when the downloader raises, the `except` handler returns failure without
any cleanup, leaving a partial file that a re-run mistakes for an
already-present asset (see `gdown_exception_leaves_partial_cex`). -/
theorem gdown_normal_failure_cleans_up (r : Option Nat)
    (h : (download_video false (GdownRes.completed r)).1 = false) :
    (download_video false (GdownRes.completed r)).2.2 = false := by
  cases r with
  | none => rfl
  | some sz =>
    by_cases hs : sz > 0
    · simp [download_video, hs] at h
    · simp [download_video, hs]

/-- Witness for `gdown_normal_failure_cleans_up` at a zero-byte download. -/
theorem gdown_normal_failure_cleans_up_witness :
    (download_video false (GdownRes.completed (some 0))).1 = false ∧
    (download_video false (GdownRes.completed (some 0))).2.2 = false := by
  have h : (download_video false (GdownRes.completed (some 0))).1 = false := by decide
  exact ⟨h, gdown_normal_failure_cleans_up (some 0) h⟩

/-- Counterexample to C8 as stated: a raising downloader that leaves a
partial file behind makes `download_video` report failure with the file
still on disk, and the next run, seeing the file, returns success without
downloading — the failed download is mistaken for an already-present
asset. -/
theorem gdown_exception_leaves_partial_cex :
    download_video false (GdownRes.raised true) = (false, true, true) ∧
    download_video true (GdownRes.completed none) = (true, false, true) := by decide

/-- A prefix of an append no longer than the first part is a prefix of the
first part. -/
theorem prefix_of_le_append {l a b : List Char} (h : l <+: a ++ b)
    (hl : l.length ≤ a.length) : l <+: a := by
  rw [List.prefix_iff_eq_take] at h ⊢
  rw [List.take_append_of_le_length hl] at h
  exact h

/-- Splitting lemma: an infix occurrence in `a ++ b` whose pattern does not
contain the first character of `b` lies wholly inside `a` or wholly inside
`b`. -/
theorem infix_append_head {u a b : List Char}
    (hb : ∀ c rest2, b = c :: rest2 → c ∉ u) (h : u <:+: a ++ b) :
    u <:+: a ∨ u <:+: b := by
  obtain ⟨p, q, hpq⟩ := h
  by_cases h1 : p.length + u.length ≤ a.length
  · left
    have hpre : p ++ u <+: a :=
      prefix_of_le_append ⟨q, hpq⟩ (by simpa using h1)
    obtain ⟨r, hr⟩ := hpre
    exact ⟨p, r, hr⟩
  · by_cases h2 : a.length ≤ p.length
    · right
      have hpre : a <+: p := by
        refine prefix_of_le_append (b := u ++ q) ⟨b, ?_⟩ h2
        rw [← List.append_assoc]
        exact hpq.symm
      obtain ⟨p', hp'⟩ := hpre
      have hcalc : a ++ (p' ++ u ++ q) = a ++ b :=
        calc a ++ (p' ++ u ++ q) = ((a ++ p') ++ u) ++ q := by
              simp [List.append_assoc]
          _ = (p ++ u) ++ q := by rw [hp']
          _ = a ++ b := hpq
      exact ⟨p', q, List.append_cancel_left hcalc⟩
    · exfalso
      push_neg at h1 h2
      have hmu : a.length - p.length < u.length := by omega
      have hb_eq : b = u.drop (a.length - p.length) ++ q := by
        have hd : (p ++ u ++ q).drop a.length = (a ++ b).drop a.length := by rw [hpq]
        rw [List.drop_left] at hd
        rw [List.append_assoc] at hd
        have ha : a.length = p.length + (a.length - p.length) := by omega
        rw [ha, ← List.drop_drop, List.drop_left,
          List.drop_append_of_le_length (Nat.le_of_lt hmu)] at hd
        exact hd.symm
      cases hud : u.drop (a.length - p.length) with
      | nil =>
        have := congrArg List.length hud
        simp [List.length_drop] at this
        omega
      | cons c rest =>
        have hc_mem : c ∈ u := by
          refine List.mem_of_mem_drop (n := a.length - p.length) ?_
          rw [hud]
          exact List.mem_cons_self c rest
        refine hb c (rest ++ q) ?_ hc_mem
        rw [hb_eq, hud, List.cons_append]

/-- Splitting lemma: an infix occurrence in `t ++ y` whose pattern shares no
character with `t` lies wholly inside `y`. -/
theorem infix_append_tail {u t y : List Char} (hu : u ≠ [])
    (hdis : ∀ a ∈ u, a ∉ t) (h : u <:+: t ++ y) : u <:+: y := by
  obtain ⟨p, q, hpq⟩ := h
  by_cases h2 : t.length ≤ p.length
  · have hpre : t <+: p := by
      refine prefix_of_le_append (b := u ++ q) ⟨y, ?_⟩ h2
      rw [← List.append_assoc]
      exact hpq.symm
    obtain ⟨p', hp'⟩ := hpre
    have hcalc : t ++ (p' ++ u ++ q) = t ++ y :=
      calc t ++ (p' ++ u ++ q) = ((t ++ p') ++ u) ++ q := by
            simp [List.append_assoc]
        _ = (p ++ u) ++ q := by rw [hp']
        _ = t ++ y := hpq
    exact ⟨p', q, List.append_cancel_left hcalc⟩
  · exfalso
    push_neg at h2
    have hd : (p ++ u ++ q).drop p.length = (t ++ y).drop p.length := by rw [hpq]
    rw [List.append_assoc, List.drop_left,
      List.drop_append_of_le_length (Nat.le_of_lt h2)] at hd
    cases hu2 : u with
    | nil => exact hu hu2
    | cons c rest =>
      cases htd : t.drop p.length with
      | nil =>
        have := congrArg List.length htd
        simp [List.length_drop] at this
        omega
      | cons d rest2 =>
        rw [hu2, htd, List.cons_append, List.cons_append] at hd
        injection hd with hcd _
        refine hdis c (by rw [hu2]; exact List.mem_cons_self c rest) ?_
        rw [hcd]
        refine List.mem_of_mem_drop (n := p.length) ?_
        rw [htd]
        exact List.mem_cons_self d rest2

/-- Containment survives appending on the right. -/
theorem containsSeq_append_left (u s t : List Char)
    (h : containsSeq u s = true) : containsSeq u (s ++ t) = true := by
  rw [containsSeq_iff] at h ⊢
  obtain ⟨x, y, hxy⟩ := h
  exact ⟨x, y ++ t, by rw [← hxy]; simp [List.append_assoc]⟩

/-- Containment survives prepending on the left. -/
theorem containsSeq_append_right (u s t : List Char)
    (h : containsSeq u t = true) : containsSeq u (s ++ t) = true := by
  rw [containsSeq_iff] at h ⊢
  obtain ⟨x, y, hxy⟩ := h
  exact ⟨s ++ x, y, by rw [← hxy]; simp [List.append_assoc]⟩

/-- A successful `findIdxSub` makes the needle a literal prefix of the
haystack dropped at the found index. -/
theorem findIdxSub_spec :
    ∀ (s : List Char) {t : List Char} {i : Nat},
      findIdxSub t s = some i → t.isPrefixOf (s.drop i) = true := by
  intro s
  induction s with
  | nil =>
    intro t i h
    simp only [findIdxSub] at h
    split at h
    · rename_i ht
      injection h with h0
      subst h0
      rw [List.isEmpty_iff] at ht
      subst ht
      rfl
    · cases h
  | cons c cs ih =>
    intro t i h
    simp only [findIdxSub] at h
    split at h
    · rename_i hp
      injection h with h0
      subst h0
      simpa using hp
    · cases hfc : findIdxSub t cs with
      | none => rw [hfc] at h; cases h
      | some j =>
        rw [hfc] at h
        rw [Option.map_some'] at h
        injection h with h0
        subst h0
        exact ih hfc

/-- The two outcomes of a first-occurrence replacement. -/
theorem replaceFirstL_cases (t r s : List Char) :
    replaceFirstL t r s = s ∨
      ∃ i, findIdxSub t s = some i ∧
        replaceFirstL t r s = s.take i ++ r ++ s.drop (i + t.length) := by
  cases h : findIdxSub t s with
  | none => left; unfold replaceFirstL; rw [h]
  | some i => right; exact ⟨i, rfl, by unfold replaceFirstL; rw [h]⟩

/-- A prefix decomposes the list as itself followed by the dropped tail. -/
theorem eq_append_drop_of_prefix {t s : List Char} (h : t <+: s) :
    s = t ++ s.drop t.length := by
  obtain ⟨r, hr⟩ := h
  rw [← hr, List.drop_left]

/-- The comment-splicing step never destroys the processed marker: both
insertion points begin with a `<` (the starts of `<script` and `</head>`),
a character the marker does not contain, so the marker's occurrence is never
cut, and the replaced `</head>` shares no character with the marker. -/
theorem fix_spliced_keeps_marker (new1 : List Char) (head_end : Nat)
    (h : containsSeq blockerMarker new1 = true) :
    containsSeq blockerMarker (fix_spliced new1 head_end) = true := by
  unfold fix_spliced
  cases h1 : rfindSub (lc "</style>") (new1.take head_end) with
  | none => exact h
  | some ls =>
    dsimp only
    cases h2 : findFromSub (lc "<script") ls (new1.take head_end) with
    | none => exact h
    | some ns =>
      dsimp only
      by_cases h3 : ns < head_end
      · rw [if_pos h3]
        have hsp : (lc "<script") <+: new1.drop ns := by
          unfold findFromSub at h2
          cases h4 : findIdxSub (lc "<script") ((new1.take head_end).drop ls) with
          | none => rw [h4] at h2; cases h2
          | some n0 =>
            rw [h4, Option.map_some'] at h2
            injection h2 with h2
            have h5 := findIdxSub_spec _ h4
            rw [List.isPrefixOf_iff_prefix, List.drop_drop, Nat.add_comm ls n0, h2] at h5
            exact h5.trans ((List.take_prefix head_end new1).drop ns)
        obtain ⟨rs, hrs⟩ := hsp
        have hsplit : blockerMarker <:+: new1.take ns ∨ blockerMarker <:+: new1.drop ns := by
          refine infix_append_head ?_ ?_
          · intro ch rest2 hc
            rw [← hrs] at hc
            have hlt : lc "<script" = '<' :: lc "script" := rfl
            rw [hlt, List.cons_append] at hc
            injection hc with hch _
            rw [← hch]
            decide
          · rw [List.take_append_drop]
            exact (containsSeq_iff _ _).mp h
        have hs2 : containsSeq blockerMarker (insertAtL ns cmtStart new1) = true := by
          unfold insertAtL
          rcases hsplit with h5 | h5
          · exact containsSeq_append_left _ _ _
              (containsSeq_append_left _ _ _ ((containsSeq_iff _ _).mpr h5))
          · exact containsSeq_append_right _ _ _ ((containsSeq_iff _ _).mpr h5)
        rcases replaceFirstL_cases (lc "</head>") endCmt (insertAtL ns cmtStart new1) with
          h6 | ⟨j, hj, h6⟩
        · rw [h6]
          exact hs2
        · rw [h6]
          have hjp := findIdxSub_spec _ hj
          rw [List.isPrefixOf_iff_prefix] at hjp
          have hdecomp : (insertAtL ns cmtStart new1).drop j =
              lc "</head>" ++
                (insertAtL ns cmtStart new1).drop (j + (lc "</head>").length) := by
            have hx := eq_append_drop_of_prefix hjp
            rw [List.drop_drop] at hx
            exact hx
          have hsplit2 : blockerMarker <:+: (insertAtL ns cmtStart new1).take j ∨
              blockerMarker <:+:
                lc "</head>" ++
                  (insertAtL ns cmtStart new1).drop (j + (lc "</head>").length) := by
            refine infix_append_head ?_ ?_
            · intro ch rest2 hc
              have hlt : lc "</head>" = '<' :: lc "/head>" := rfl
              rw [hlt, List.cons_append] at hc
              injection hc with hch _
              rw [← hch]
              decide
            · rw [← hdecomp, List.take_append_drop]
              exact (containsSeq_iff _ _).mp hs2
          rcases hsplit2 with h7 | h7
          · exact containsSeq_append_left _ _ _
              (containsSeq_append_left _ _ _ ((containsSeq_iff _ _).mpr h7))
          · have h8 : blockerMarker <:+:
                (insertAtL ns cmtStart new1).drop (j + (lc "</head>").length) :=
              infix_append_tail (by decide) (by decide) h7
            exact containsSeq_append_right _ _ _ ((containsSeq_iff _ _).mpr h8)
      · rw [if_neg h3]
        exact h

/-- Every run of `process_html_file` either leaves the file content intact
or writes content that contains the processed marker (the injected
`REDIRECT_BLOCKER` carries it, and the later splices never cut it). -/
theorem fix_process_writes_marked (c : List Char) :
    (fix_process c).2 = c ∨ containsSeq blockerMarker (fix_process c).2 = true := by
  by_cases h0 : containsSeq blockerMarker c = true
  · left
    simp [fix_process, h0]
  · by_cases h1 : replaceFirstL (lc "<head>") (lc "<head>\n" ++ REDIRECT_BLOCKER) c = c
    · left
      simp [fix_process, h0, h1]
    · cases h2 : findIdxSub (lc "</head>")
          (replaceFirstL (lc "<head>") (lc "<head>\n" ++ REDIRECT_BLOCKER) c) with
      | none =>
        left
        simp [fix_process, h0, h1, h2]
      | some head_end =>
        right
        have hB : containsSeq blockerMarker REDIRECT_BLOCKER = true := by
          show containsSeq blockerMarker (blockerPre ++ blockerMarker ++ blockerPost) = true
          exact containsSeq_parts blockerMarker blockerPre blockerPost
        have hm1 : containsSeq blockerMarker
            (replaceFirstL (lc "<head>") (lc "<head>\n" ++ REDIRECT_BLOCKER) c) = true := by
          rcases replaceFirstL_cases (lc "<head>") (lc "<head>\n" ++ REDIRECT_BLOCKER) c with
            h3 | ⟨i, _, h3⟩
          · exact absurd h3 h1
          · rw [h3]
            exact containsSeq_append_left _ _ _
              (containsSeq_append_right _ _ _ (containsSeq_append_right _ _ _ hB))
        have hkeep := fix_spliced_keeps_marker _ head_end hm1
        simpa [fix_process, h0, h1, h2] using hkeep

/-- C10: the redirect-blocker injector of `fix_all_html.py` is idempotent —
a file whose content already carries the `REDIRECT BLOCKER ACTIVE` marker is
reported as skipped (`False`) with its content untouched, and for every file
content whatsoever applying the injector twice equals applying it once. -/
theorem redirect_blocker_injector_idempotent (c : List Char) :
    (containsSeq blockerMarker c = true → fix_process c = (false, c)) ∧
    applyFix (applyFix c) = applyFix c := by
  constructor
  · intro h
    simp [fix_process, h]
  · rcases fix_process_writes_marked c with h | h
    · show (fix_process (applyFix c)).2 = applyFix c
      have hfix : applyFix c = c := h
      rw [hfix]
      exact h
    · show (fix_process (applyFix c)).2 = applyFix c
      have hm : containsSeq blockerMarker (applyFix c) = true := h
      have : fix_process (applyFix c) = (false, applyFix c) := by
        simp [fix_process, hm]
      rw [this]

/-- Witness for `redirect_blocker_injector_idempotent` at a concrete file
content already carrying the marker. -/
theorem redirect_blocker_injector_idempotent_witness :
    containsSeq blockerMarker (lc "x REDIRECT BLOCKER ACTIVE y") = true ∧
    fix_process (lc "x REDIRECT BLOCKER ACTIVE y") =
      (false, lc "x REDIRECT BLOCKER ACTIVE y") ∧
    applyFix (applyFix (lc "x REDIRECT BLOCKER ACTIVE y")) =
      applyFix (lc "x REDIRECT BLOCKER ACTIVE y") := by
  have h : containsSeq blockerMarker (lc "x REDIRECT BLOCKER ACTIVE y") = true := by decide
  exact ⟨h, (redirect_blocker_injector_idempotent _).1 h,
    (redirect_blocker_injector_idempotent _).2⟩
